import Mathlib

set_option maxHeartbeats 1000000

namespace RGBLCD

/-!
Shallow embedding of `src/python/text_renderer.py` (class `TextRenderer`).

Modelling conventions:
* Python strings are `List Char`; Python integers are `Int` (unbounded, signed);
* the per-(font, size) metadata table `char_sizes` (JSON object with
  decimal-string keys) is a function `Nat → Option (Int × Int)` from character
  code to an `(advance_width, glyph_height)` pair;
* grayscale PIL images (`mode 'L'`, `img_bg = 255`, `img_fg = 0`) are a width,
  a height and a total pixel function, read only on the `width × height` domain;
* the font directory on disk is a `GlyphEnv`: an optional metadata table
  (missing file = `none`, whose `open` raises) and a partial map from character
  code to glyph bitmap (missing glyph file = `none`, raising `FileNotFoundError`).
-/

abbrev CharSizes := Nat → Option (Int × Int)

/-- `TextRenderer.get_char_code`: the class-level `CHAR_MAP` is empty in the
source, so every character resolves to its code point (`ord(char)`). -/
def get_char_code (c : Char) : Nat := c.toNat

/-- The line-break characters recognised by Python `str.splitlines`. -/
def isLineBreak (c : Char) : Bool :=
  c == '\n' || c == '\r' || c == '\x0b' || c == '\x0c' || c == '\x1c' ||
  c == '\x1d' || c == '\x1e' || c == '\x85' || c == '\u2028' || c == '\u2029'

/-- Worker for `splitlines`: `acc` is the reversed current line.  A line-break
character ends the current line; a final line break does not open a new empty
line; `"\r\n"` counts as a single break. -/
def splitlinesGo : List Char → List Char → List (List Char)
  | [], acc => [acc.reverse]
  | c :: rest, acc =>
    if isLineBreak c then
      match rest with
      | [] => [acc.reverse]
      | r :: rs =>
        if c = '\r' ∧ r = '\n' then
          if rs.isEmpty then [acc.reverse] else acc.reverse :: splitlinesGo rs []
        else acc.reverse :: splitlinesGo (r :: rs) []
    else splitlinesGo rest (c :: acc)

/-- Python `text.splitlines()`; the empty string yields no lines at all. -/
def splitlines (text : List Char) : List (List Char) :=
  if text.isEmpty then [] else splitlinesGo text []

/-- Advance width looked up in `char_sizes`; a character whose code has no
metadata entry contributes nothing (`if key in char_sizes` guard). -/
def charAdvance (cs : CharSizes) (c : Char) : Int :=
  match cs (get_char_code c) with
  | some p => p.1
  | none => 0

/-- Width of one line in `get_text_size`: each character adds its advance
width, and `h_spacing` is added after every character except the last
(`if char_idx < len(line) - 1`). -/
def lineWidth (cs : CharSizes) (h_spacing : Int) : List Char → Int
  | [] => 0
  | [c] => charAdvance cs c
  | c :: rest => charAdvance cs c + h_spacing + lineWidth cs h_spacing rest

/-- `max_height` accumulator of `get_text_size` for one line: starts at 0 and
is raised to `ch` whenever `ch > max_height`; characters without a metadata
entry leave it unchanged. -/
def lineMaxHeight (cs : CharSizes) (line : List Char) : Int :=
  line.foldl
    (fun mh c =>
      match cs (get_char_code c) with
      | some p => if p.2 > mh then p.2 else mh
      | none => mh) 0

/-- The accumulation loop of `get_text_size` over the split lines: widths add
up across all lines; heights add up with `v_spacing` between consecutive lines
(`if line_idx < len(lines) - 1`). -/
def textSizeLoop (cs : CharSizes) (h_spacing v_spacing : Int) :
    List (List Char) → Int × Int
  | [] => (0, 0)
  | [l] => (lineWidth cs h_spacing l, lineMaxHeight cs l)
  | l :: rest =>
    let p := textSizeLoop cs h_spacing v_spacing rest
    (lineWidth cs h_spacing l + p.1, lineMaxHeight cs l + v_spacing + p.2)

/-- `TextRenderer.get_text_size` with the metadata table already loaded. -/
def get_text_size (cs : CharSizes) (text : List Char) (h_spacing v_spacing : Int) :
    Int × Int :=
  textSizeLoop cs h_spacing v_spacing (splitlines text)

/-- Python `text.split(" ")`: splitting on every single space, keeping empty
words; the empty string splits to one empty word. -/
def splitSpace : List Char → List (List Char)
  | [] => [[]]
  | c :: rest =>
    if c = ' ' then [] :: splitSpace rest
    else (c :: (splitSpace rest).headI) :: (splitSpace rest).tail

/-- Python `" ".join(words)`. -/
def joinSpace : List (List Char) → List Char
  | [] => []
  | [w] => w
  | w :: ws => w ++ ' ' :: joinSpace ws

/-- The word-dropping `while` loop of `wrap_text`: starting from `d` dropped
trailing words, find the first drop count whose remaining prefix
(`" ".join(words[:-d])`) is nonempty and measures within `width`; stop with
`none` (falling through to the word-breaking branch) as soon as the prefix is
empty.  `gas` is an iteration budget; started at `words.length` the budget
never runs out before the prefix becomes empty, so the `0` case is the same
empty-prefix exit. -/
def wrapDrop (cs : CharSizes) (h_spacing width : Int) (words : List (List Char)) :
    Nat → Nat → Option (List Char × Nat)
  | _, 0 => none
  | d, gas + 1 =>
    let pline := joinSpace (words.take (words.length - d))
    if pline.isEmpty then none
    else if (get_text_size cs pline h_spacing 0).1 ≤ width then some (pline, d)
    else wrapDrop cs h_spacing width words (d + 1) gas

/-- The character-dropping inner `while` loop of `wrap_text` (`break_words`
branch): drop `cd` trailing characters of `word` until the remaining prefix
fits in `width`; if the prefix becomes empty first, give up: an empty word
yields `(partial, remainder, empty) = ("", "", True)`, otherwise the first
character is taken unconditionally with the rest as remainder.  `gas` started
at `word.length + 1` never runs out before the prefix empties; the `0` case
repeats the empty-prefix exit. -/
def charDrop (cs : CharSizes) (h_spacing width : Int) (word : List Char) :
    Nat → Nat → List Char × List Char × Bool
  | _, 0 =>
    if word.isEmpty then ([], [], true) else ([word.headI], word.drop 1, false)
  | cd, gas + 1 =>
    let pword := word.take (word.length - cd)
    if pword.isEmpty then
      if word.isEmpty then ([], [], true) else ([word.headI], word.drop 1, false)
    else if (get_text_size cs pword h_spacing 0).1 ≤ width then
      (pword, word.drop (word.length - cd), false)
    else charDrop cs h_spacing width word (cd + 1) gas

/-- `TextRenderer.wrap_text`, with an explicit recursion budget `fuel`
(`none` = the budget ran out, i.e. the Python recursion would still be
running).  One step: if the whole text measures within `width`, it is the sole
line; otherwise split on spaces, drop trailing words until a prefix fits
(recursing on the dropped suffix), and when even the first word alone does not
fit either break it after the widest fitting prefix (`break_words`) or emit it
oversized, recursing on the remainder. -/
def wrap_fuel (cs : CharSizes) (width h_spacing : Int) (break_words : Bool) :
    Nat → List Char → Option (List (List Char))
  | 0, _ => none
  | fuel + 1, text =>
    if (get_text_size cs text h_spacing 0).1 ≤ width then some [text]
    else
      let words := splitSpace text
      match wrapDrop cs h_spacing width words 1 words.length with
      | some (pline, d) =>
        (wrap_fuel cs width h_spacing break_words fuel
            (joinSpace (words.drop (words.length - d)))).map (pline :: ·)
      | none =>
        if break_words then
          let word := words.headI
          let r := charDrop cs h_spacing width word 1 (word.length + 1)
          let remainder :=
            if r.2.2 then joinSpace (words.drop 1)
            else r.2.1 ++ ' ' :: joinSpace (words.drop 1)
          (wrap_fuel cs width h_spacing break_words fuel remainder).map (r.1 :: ·)
        else
          (wrap_fuel cs width h_spacing break_words fuel
              (joinSpace (words.drop 1))).map (words.headI :: ·)

/-- Number of non-space characters of a text. -/
def nonSpaceCount (text : List Char) : Nat := (text.filter (· ≠ ' ')).length

/-- Termination measure for `wrap_text`: length plus non-space count; every
recursive call strictly decreases it when `0 ≤ width`. -/
def wrapMeasure (text : List Char) : Nat := text.length + nonSpaceCount text

/-- Recursion budget sufficient for `wrap_text` whenever `0 ≤ width`. -/
def wrapBound (text : List Char) : Nat := wrapMeasure text + 1

/-- `TextRenderer.wrap_text`.  For `0 ≤ width` the budget `wrapBound text`
always suffices (theorem `wrap_fuel_isSome_of_nonneg`), so the default branch
is dead there; for `width < 0` the Python recursion does not terminate. -/
def wrap_text (cs : CharSizes) (width : Int) (text : List Char)
    (h_spacing : Int) (break_words : Bool) : List (List Char) :=
  (wrap_fuel cs width h_spacing break_words (wrapBound text) text).getD [text]

/-- Proposition: the Python `wrap_text` recursion terminates on this input
(some recursion budget suffices). -/
def wrapTerminatesOn (cs : CharSizes) (width : Int) (text : List Char)
    (h_spacing : Int) (break_words : Bool) : Prop :=
  ∃ fuel, (wrap_fuel cs width h_spacing break_words fuel text).isSome

/-! ### Spec-side measurement formulas (from the spec's words, for comparison) -/

/-- Spec formula: sum of the advance widths of the characters of a line, a
character without a metadata entry contributing zero. -/
def sumAdvances (cs : CharSizes) (line : List Char) : Int :=
  (line.map (charAdvance cs)).sum

/-- Spec formula: the maximum glyph height among the characters of the line
that have a metadata entry (zero when none has). -/
def maxGlyphHeight (cs : CharSizes) (line : List Char) : Int :=
  (line.filterMap (fun c => (cs (get_char_code c)).map Prod.snd)).foldl max 0

/-- A font table for counterexamples: `a` and `b` are 10 pixels wide and
2 pixels tall, nothing else has a metadata entry. -/
def csAB : CharSizes := fun code => if code = 97 ∨ code = 98 then some (10, 2) else none

/-- The all-missing font table: no character has a metadata entry. -/
def csNone : CharSizes := fun _ => none

/-! ### PIL image model and the canvas composer -/

/-- A grayscale PIL image (`mode 'L'`): width, height, and a total pixel
function that is only read on the `w × h` domain. -/
structure Img where
  w : Nat
  h : Nat
  px : Nat → Nat → Nat

/-- `self.img_bg` (background, light). -/
def img_bg : Nat := 255

/-- `self.img_fg` (foreground, dark). -/
def img_fg : Nat := 0

/-- `Image.new(self.img_mode, (w, h), color)`. -/
def imgNew (w h : Nat) (color : Nat) : Img := ⟨w, h, fun _ _ => color⟩

/-- `dst.paste(src, (x, y))`: source pixels replace destination pixels on
the translated domain; anything outside the destination's own bounds is
clipped by the destination (we only ever read inside them). -/
def imgPaste (dst src : Img) (x y : Int) : Img :=
  ⟨dst.w, dst.h, fun i j =>
    if x ≤ (i : Int) ∧ (i : Int) < x + src.w ∧ y ≤ (j : Int) ∧ (j : Int) < y + src.h then
      src.px ((i : Int) - x).toNat ((j : Int) - y).toNat
    else dst.px i j⟩

/-- `ImageOps.invert` on mode `'L'`: every pixel becomes `255 - p`. -/
def imgInvert (img : Img) : Img := ⟨img.w, img.h, fun i j => 255 - img.px i j⟩

/-- `img.crop((l, u, r, b))` for a box inside the image (as produced by
`getbbox`): size `(r - l, b - u)`, pixels translated, zero outside the
source. -/
def imgCrop (img : Img) (l u r b : Nat) : Img :=
  ⟨r - l, b - u, fun i j =>
    if l + i < img.w ∧ u + j < img.h then img.px (l + i) (u + j) else 0⟩

/-- `img.getbbox()`: the smallest `(left, upper, right, lower)` box (right
and lower exclusive) containing all nonzero pixels, or `none` when every
pixel in the domain is zero. -/
def imgGetbbox (img : Img) : Option (Nat × Nat × Nat × Nat) :=
  match (List.range img.w).filter
      (fun x => (List.range img.h).any (fun y => img.px x y != 0)),
    (List.range img.h).filter
      (fun y => (List.range img.w).any (fun x => img.px x y != 0)) with
  | x0 :: xrest, y0 :: yrest =>
    some (x0, y0, xrest.getLastD x0 + 1, yrest.getLastD y0 + 1)
  | _, _ => none

/-- The font directory for one `(font, size)` pair as the renderer sees it:
the optional metadata table (`metadata.json`; `none` means the `open` in
`get_font_metadata` raises) and the glyph bitmaps by character code
(`none` means `Image.open` in `render_character` raises
`FileNotFoundError`). -/
structure GlyphEnv where
  metadata : Option CharSizes
  glyphs : Nat → Option Img

inductive HAlign
  | left
  | center
  | right
deriving DecidableEq

inductive VAlign
  | top
  | middle
  | bottom
deriving DecidableEq

/-- The errors a render call can raise in this model: the missing-metadata
`open` failure, and PIL's `ValueError` for `Image.new` with a negative
size. -/
inductive RenderError
  | metadataMissing
  | invalidSize
deriving DecidableEq

/-- `TextRenderer.render_character`: a missing glyph file is caught
(`except FileNotFoundError`) and returns `(False, x, y)` with the canvas
untouched; otherwise the glyph is pasted at `(x, y)` and the cursor
advances by the glyph's own width, or by the forced `char_width` (the glyph
being cropped down to `char_width` when it is narrower). -/
def render_character (glyphs : Nat → Option Img) (img : Img) (x y : Int)
    (force_width : Option Nat) (code : Nat) : Bool × Int × Int × Img :=
  match glyphs code with
  | none => (false, x, y, img)
  | some char_img =>
    match force_width with
    | some fw =>
      let char_img2 :=
        if fw < char_img.w then imgCrop char_img 0 0 fw char_img.h else char_img
      (true, x + fw, y, imgPaste img char_img2 x y)
    | none => (true, x + char_img.w, y, imgPaste img char_img x y)

/-- The character loop shared by `render_text` and
`render_multiline_text`: paste each character, take the returned cursor and
add `spacing` to `x` (the `x += spacing` line). -/
def renderChars (glyphs : Nat → Option Img) (char_width : Option Nat)
    (spacing : Int) : List Char → Img → Int → Int → Img × Int × Int
  | [], img, x, y => (img, x, y)
  | c :: rest, img, x, y =>
    let r := render_character glyphs img x y char_width (get_char_code c)
    renderChars glyphs char_width spacing rest r.2.2.2 (r.2.1 + spacing) r.2.2.1

/-- The bounding-box realignment step (the identical blocks ending
`render_text` and `render_multiline_text`): when alignment is not
(left, top), find the bounding box of non-background pixels via
`ImageOps.invert(img).getbbox()`; if there is one, crop to it and paste the
cropped content at the alignment offsets onto a fresh blank canvas
(`center`: `(target - cropped) // 2`, `right`/`bottom`: `target - cropped`,
`left`/`top`: 0); if there is none (`bbox is None`) leave the canvas as it
is. -/
def applyAlignment (width height : Nat) (halign : HAlign) (valign : VAlign)
    (text_img : Img) : Img :=
  if (halign = HAlign.center ∨ halign = HAlign.right) ∨
      (valign = VAlign.middle ∨ valign = VAlign.bottom) then
    match imgGetbbox (imgInvert text_img) with
    | none => text_img
    | some (l, u, r, b) =>
      let cropped := imgCrop text_img l u r b
      let x_offset : Int :=
        match halign with
        | HAlign.center => Int.fdiv ((width : Int) - cropped.w) 2
        | HAlign.right => (width : Int) - cropped.w
        | HAlign.left => 0
      let y_offset : Int :=
        match valign with
        | VAlign.middle => Int.fdiv ((height : Int) - cropped.h) 2
        | VAlign.bottom => (height : Int) - cropped.h
        | VAlign.top => 0
      imgPaste (imgNew width height img_bg) cropped x_offset y_offset
  else text_img

/-- `TextRenderer.render_text`: compose the characters left to right from
`(pad_left, pad_top)` onto a blank `width × height` canvas, realign by
bounding box when requested, and invert last.  It never reads the font
metadata, and it never raises: a missing glyph is skipped. -/
def render_text (env : GlyphEnv) (width height : Nat) (pad_left pad_top : Int)
    (halign : HAlign) (valign : VAlign) (inverted : Bool) (spacing : Int)
    (char_width : Option Nat) (text : List Char) : Img :=
  let composed := (renderChars env.glyphs char_width spacing text
    (imgNew width height img_bg) pad_left pad_top).1
  let aligned := applyAlignment width height halign valign composed
  if inverted then imgInvert aligned else aligned

/-- `Image.new` with Python-int dimensions: PIL raises `ValueError` for a
negative size (the per-line buffer of `render_multiline_text` is sized by
`get_text_size`, which can be negative for negative metadata or spacing). -/
def newImageChecked (w h : Int) (color : Nat) : Except RenderError Img :=
  if w < 0 ∨ h < 0 then Except.error RenderError.invalidSize
  else Except.ok (imgNew w.toNat h.toNat color)

/-- Python `str.isspace` on the ASCII whitespace characters. -/
def isPySpace (c : Char) : Bool :=
  c == ' ' || c == '\t' || c == '\n' || c == '\r' || c == '\x0b' || c == '\x0c'

/-- Python `str.strip()`. -/
def pyStrip (l : List Char) : List Char :=
  ((l.dropWhile isPySpace).reverse.dropWhile isPySpace).reverse

/-- One `render_line` iteration of `render_multiline_text`: strip the line
(substituting a single space when the result is empty), measure it, render
its characters into a line-local buffer of exactly the measured size,
compute the horizontal offset (`center`: `(width - line_width) // 2`;
`right`: `width - line_width - 1`; `left`: 0), paste the buffer at
`(x_offset + pad_left, y)` into the accumulator canvas, and advance `y` by
the measured height plus `v_spacing`. -/
def renderRenderLine (env : GlyphEnv) (cs : CharSizes) (width : Nat)
    (pad_left : Int) (halign : HAlign) (h_spacing v_spacing : Int)
    (char_width : Option Nat) (acc : Img × Int) (render_line0 : List Char) :
    Except RenderError (Img × Int) :=
  let render_line1 := pyStrip render_line0
  let render_line := if render_line1.isEmpty then [' '] else render_line1
  let sz := get_text_size cs render_line h_spacing v_spacing
  match newImageChecked sz.1 sz.2 img_bg with
  | Except.error e => Except.error e
  | Except.ok line_img0 =>
    let line_img := (renderChars env.glyphs char_width h_spacing render_line
      line_img0 0 0).1
    let x_offset : Int :=
      match halign with
      | HAlign.center => Int.fdiv ((width : Int) - sz.1) 2
      | HAlign.right => (width : Int) - sz.1 - 1
      | HAlign.left => 0
    Except.ok (imgPaste acc.1 line_img (x_offset + pad_left) acc.2,
      acc.2 + sz.2 + v_spacing)

/-- The `for render_line in render_lines` loop of `render_multiline_text`. -/
def renderRenderLines (env : GlyphEnv) (cs : CharSizes) (width : Nat)
    (pad_left : Int) (halign : HAlign) (h_spacing v_spacing : Int)
    (char_width : Option Nat) :
    List (List Char) → Img × Int → Except RenderError (Img × Int)
  | [], acc => Except.ok acc
  | l :: rest, acc =>
    match renderRenderLine env cs width pad_left halign h_spacing v_spacing
        char_width acc l with
    | Except.error e => Except.error e
    | Except.ok acc2 =>
      renderRenderLines env cs width pad_left halign h_spacing v_spacing
        char_width rest acc2

/-- The outer `for line in lines` loop of `render_multiline_text`: each
logical line is optionally auto-wrapped (`wrap_text` against the canvas
width) into render lines. -/
def renderLogicalLines (env : GlyphEnv) (cs : CharSizes) (width : Nat)
    (pad_left : Int) (halign : HAlign) (h_spacing v_spacing : Int)
    (char_width : Option Nat) (auto_wrap break_words : Bool) :
    List (List Char) → Img × Int → Except RenderError (Img × Int)
  | [], acc => Except.ok acc
  | line :: rest, acc =>
    let render_lines :=
      if auto_wrap then wrap_text cs (width : Int) line h_spacing break_words
      else [line]
    match renderRenderLines env cs width pad_left halign h_spacing v_spacing
        char_width render_lines acc with
    | Except.error e => Except.error e
    | Except.ok acc2 =>
      renderLogicalLines env cs width pad_left halign h_spacing v_spacing
        char_width auto_wrap break_words rest acc2

/-- `TextRenderer.render_multiline_text`: load the metadata (fatal when
missing), split into logical lines, render each (auto-wrapping on request)
onto the main canvas from `y = pad_top` downward, then realign by bounding
box and invert exactly as `render_text` does. -/
def render_multiline_text (env : GlyphEnv) (width height : Nat)
    (pad_left pad_top : Int) (halign : HAlign) (valign : VAlign)
    (inverted : Bool) (h_spacing v_spacing : Int) (char_width : Option Nat)
    (text : List Char) (auto_wrap break_words : Bool) :
    Except RenderError Img :=
  match env.metadata with
  | none => Except.error RenderError.metadataMissing
  | some cs =>
    match renderLogicalLines env cs width pad_left halign h_spacing v_spacing
        char_width auto_wrap break_words (splitlines text)
        (imgNew width height img_bg, pad_top) with
    | Except.error e => Except.error e
    | Except.ok acc =>
      let aligned := applyAlignment width height halign valign acc.1
      Except.ok (if inverted then imgInvert aligned else aligned)

/-- Modelled from the spec (the behavior claim C2 asserts): a
`render_character` variant in which a missing glyph still advances the
cursor by the character's metadata-declared advance width (or zero when the
metadata also lacks the entry).  The real `render_character` instead leaves
the cursor unchanged. -/
def render_character_claimC2 (cs : CharSizes) (glyphs : Nat → Option Img)
    (img : Img) (x y : Int) (force_width : Option Nat) (code : Nat) :
    Bool × Int × Int × Img :=
  match glyphs code with
  | none => (false, x + (((cs code).map Prod.fst).getD 0), y, img)
  | some _ => render_character glyphs img x y force_width code

/-- Modelled from the spec (claim C2): the character loop using
`render_character_claimC2`. -/
def renderCharsClaimC2 (cs : CharSizes) (glyphs : Nat → Option Img)
    (char_width : Option Nat) (spacing : Int) :
    List Char → Img → Int → Int → Img × Int × Int
  | [], img, x, y => (img, x, y)
  | c :: rest, img, x, y =>
    let r := render_character_claimC2 cs glyphs img x y char_width (get_char_code c)
    renderCharsClaimC2 cs glyphs char_width spacing rest r.2.2.2 (r.2.1 + spacing)
      r.2.2.1

/-- Modelled from the spec (claim C2): `render_text` with the
advance-by-metadata-width treatment of missing glyphs that the claim
describes. -/
def render_text_claimC2 (env : GlyphEnv) (width height : Nat)
    (pad_left pad_top : Int) (halign : HAlign) (valign : VAlign)
    (inverted : Bool) (spacing : Int) (char_width : Option Nat)
    (text : List Char) : Img :=
  let cs := env.metadata.getD (fun _ => none)
  let composed := (renderCharsClaimC2 cs env.glyphs char_width spacing text
    (imgNew width height img_bg) pad_left pad_top).1
  let aligned := applyAlignment width height halign valign composed
  if inverted then imgInvert aligned else aligned

/-- A 1×1 all-foreground glyph bitmap. -/
def glyphDot : Img := ⟨1, 1, fun _ _ => img_fg⟩

/-- Environment for C2: the glyph for `A` (code 65) exists, the glyph for
`B` (code 66) is missing, while the metadata declares `B` as 5 px wide. -/
def envB : GlyphEnv where
  metadata := some (fun code =>
    if code = 65 then some (1, 1) else if code = 66 then some (5, 1) else none)
  glyphs := fun code => if code = 65 then some glyphDot else none

/-- Environment with no metadata resource and no glyphs at all. -/
def envNone : GlyphEnv where
  metadata := none
  glyphs := fun _ => none

/-- Environment with metadata and glyph for `A` only. -/
def envA : GlyphEnv where
  metadata := some (fun code => if code = 65 then some (1, 1) else none)
  glyphs := fun code => if code = 65 then some glyphDot else none

/-! ## Theorems -/

/-! ### Lemmas about `splitSpace`, `joinSpace` and the wrap measure -/

theorem splitSpace_ne_nil (t : List Char) : splitSpace t ≠ [] := by
  cases t with
  | nil => simp [splitSpace]
  | cons c rest =>
    simp only [splitSpace]
    split <;> simp

theorem splitSpace_no_space (t : List Char) : ∀ w ∈ splitSpace t, ' ' ∉ w := by
  induction t with
  | nil => simp [splitSpace]
  | cons c rest ih =>
    intro w hw
    simp only [splitSpace] at hw
    by_cases hc : c = ' '
    · rw [if_pos hc] at hw
      rcases List.mem_cons.mp hw with rfl | hw
      · simp
      · exact ih w hw
    · rw [if_neg hc] at hw
      rcases hsr : splitSpace rest with _ | ⟨v, vs⟩
      · exact absurd hsr (splitSpace_ne_nil rest)
      · rw [hsr] at hw
        simp only [List.headI_cons, List.tail_cons] at hw
        rcases List.mem_cons.mp hw with rfl | hw
        · intro hmem
          rcases List.mem_cons.mp hmem with h | h
          · exact hc h.symm
          · exact ih v (hsr ▸ List.mem_cons_self v vs) h
        · exact ih w (hsr ▸ List.mem_cons_of_mem v hw)

theorem joinSpace_cons_cons (w v : List Char) (vs : List (List Char)) :
    joinSpace (w :: v :: vs) = w ++ ' ' :: joinSpace (v :: vs) := rfl

theorem joinSpace_splitSpace (t : List Char) : joinSpace (splitSpace t) = t := by
  induction t with
  | nil => rfl
  | cons c rest ih =>
    simp only [splitSpace]
    by_cases hc : c = ' '
    · subst hc
      rw [if_pos rfl]
      rcases hsr : splitSpace rest with _ | ⟨v, vs⟩
      · exact absurd hsr (splitSpace_ne_nil rest)
      · rw [joinSpace_cons_cons, ← hsr, ih]
        rfl
    · rw [if_neg hc]
      rcases hsr : splitSpace rest with _ | ⟨v, vs⟩
      · exact absurd hsr (splitSpace_ne_nil rest)
      · simp only [List.headI_cons, List.tail_cons]
        cases vs with
        | nil =>
          show c :: v = c :: rest
          have := ih
          rw [hsr] at this
          exact congrArg (c :: ·) this
        | cons u us =>
          rw [joinSpace_cons_cons]
          show c :: (v ++ ' ' :: joinSpace (u :: us)) = c :: rest
          have := ih
          rw [hsr, joinSpace_cons_cons] at this
          exact congrArg (c :: ·) this

theorem splitSpace_append_space (a b : List Char) :
    splitSpace (a ++ ' ' :: b) = splitSpace a ++ splitSpace b := by
  induction a with
  | nil =>
    show splitSpace (' ' :: b) = [[]] ++ splitSpace b
    simp only [splitSpace, if_pos rfl]
    rfl
  | cons c a' ih =>
    show splitSpace (c :: (a' ++ ' ' :: b)) = splitSpace (c :: a') ++ splitSpace b
    simp only [splitSpace]
    by_cases hc : c = ' '
    · rw [if_pos hc, if_pos hc, ih]
      rfl
    · rw [if_neg hc, if_neg hc, ih]
      rcases hsa : splitSpace a' with _ | ⟨w, ws⟩
      · exact absurd hsa (splitSpace_ne_nil a')
      · simp

theorem splitSpace_of_no_space (w : List Char) (h : ' ' ∉ w) : splitSpace w = [w] := by
  induction w with
  | nil => rfl
  | cons c rest ih =>
    have hc : c ≠ ' ' := fun he => h (he ▸ List.mem_cons_self c rest)
    have hrest : ' ' ∉ rest := fun hm => h (List.mem_cons_of_mem c hm)
    simp only [splitSpace, if_neg hc, ih hrest]
    rfl

theorem splitSpace_joinSpace (ws : List (List Char)) (hne : ws ≠ [])
    (hsp : ∀ w ∈ ws, ' ' ∉ w) : splitSpace (joinSpace ws) = ws := by
  induction ws with
  | nil => exact absurd rfl hne
  | cons w vs ih =>
    cases vs with
    | nil => exact splitSpace_of_no_space w (hsp w (List.mem_cons_self w []))
    | cons v vs' =>
      rw [joinSpace_cons_cons, splitSpace_append_space,
        splitSpace_of_no_space w (hsp w (List.mem_cons_self w _)),
        ih (by simp) (fun x hx => hsp x (List.mem_cons_of_mem w hx))]
      rfl

theorem joinSpace_append (a b : List (List Char)) (ha : a ≠ []) (hb : b ≠ []) :
    joinSpace (a ++ b) = joinSpace a ++ ' ' :: joinSpace b := by
  induction a with
  | nil => exact absurd rfl ha
  | cons w vs ih =>
    cases vs with
    | nil =>
      cases b with
      | nil => exact absurd rfl hb
      | cons x xs => rw [List.singleton_append, joinSpace_cons_cons]; rfl
    | cons v vs' =>
      rw [List.cons_append, joinSpace_cons_cons]
      show (w ++ ' ' :: joinSpace ((v :: vs') ++ b)) = _
      rw [ih (by simp)]
      simp

theorem joinSpace_ne_nil_of_two (w v : List Char) (vs : List (List Char)) :
    joinSpace (w :: v :: vs) ≠ [] := by
  rw [joinSpace_cons_cons]
  simp

theorem wrapMeasure_nil : wrapMeasure [] = 0 := rfl

theorem wrapMeasure_append (a b : List Char) :
    wrapMeasure (a ++ b) = wrapMeasure a + wrapMeasure b := by
  simp [wrapMeasure, nonSpaceCount, List.filter_append]
  omega

theorem wrapMeasure_space_cons (b : List Char) :
    wrapMeasure (' ' :: b) = wrapMeasure b + 1 := by
  simp [wrapMeasure, nonSpaceCount, List.filter_cons]
  omega

theorem wrapMeasure_of_no_space (w : List Char) (h : ' ' ∉ w) :
    wrapMeasure w = 2 * w.length := by
  have hf : w.filter (· ≠ ' ') = w := by
    rw [List.filter_eq_self]
    intro c hc
    simpa using fun (he : c = ' ') => h (he ▸ hc)
  simp only [wrapMeasure, nonSpaceCount, hf]
  omega

theorem wrapMeasure_pos (t : List Char) (h : t ≠ []) : 1 ≤ wrapMeasure t := by
  have : 1 ≤ t.length := List.length_pos.mpr h
  simp only [wrapMeasure]
  omega

theorem get_text_size_nil (cs : CharSizes) (hs vs : Int) :
    get_text_size cs [] hs vs = (0, 0) := rfl

/-! ### Lemmas about the `wrap_text` loops -/

theorem wrapDrop_some_spec (cs : CharSizes) (hs W : Int) (words : List (List Char)) :
    ∀ gas d p d', wrapDrop cs hs W words d gas = some (p, d') →
      d ≤ d' ∧ p = joinSpace (words.take (words.length - d')) ∧ p ≠ [] ∧
        (get_text_size cs p hs 0).1 ≤ W := by
  intro gas
  induction gas with
  | zero => intro d p d' h; simp [wrapDrop] at h
  | succ gas ih =>
    intro d p d' h
    simp only [wrapDrop] at h
    by_cases hemp : (joinSpace (words.take (words.length - d))).isEmpty
    · rw [if_pos hemp] at h
      exact absurd h (by simp)
    · rw [if_neg hemp] at h
      by_cases hfit :
          (get_text_size cs (joinSpace (words.take (words.length - d))) hs 0).1 ≤ W
      · rw [if_pos hfit] at h
        obtain ⟨h1, h2⟩ : joinSpace (words.take (words.length - d)) = p ∧ d = d' := by
          simpa using h
        subst h1
        subst h2
        exact ⟨le_rfl, rfl, by simpa using hemp, hfit⟩
      · rw [if_neg hfit] at h
        obtain ⟨hd, hrest⟩ := ih (d + 1) p d' h
        exact ⟨by omega, hrest⟩

theorem charDrop_nil_spec (cs : CharSizes) (hs W : Int) :
    ∀ gas cd, charDrop cs hs W [] cd gas = ([], [], true) := by
  intro gas cd
  cases gas <;> simp [charDrop]

theorem charDrop_cons_spec (cs : CharSizes) (hs W : Int) (c : Char) (rest : List Char) :
    ∀ gas cd, ∃ pw rw, charDrop cs hs W (c :: rest) cd gas = (pw, rw, false) ∧
      pw ≠ [] ∧ pw ++ rw = c :: rest ∧
      ((get_text_size cs pw hs 0).1 ≤ W ∨ pw.length = 1) := by
  intro gas
  induction gas with
  | zero =>
    intro cd
    exact ⟨[c], rest, by simp [charDrop], by simp, by simp, Or.inr rfl⟩
  | succ gas ih =>
    intro cd
    simp only [charDrop]
    by_cases hemp : ((c :: rest).take ((c :: rest).length - cd)).isEmpty
    · rw [if_pos hemp]
      exact ⟨[c], rest, by simp, by simp, by simp, Or.inr rfl⟩
    · rw [if_neg hemp]
      by_cases hfit :
          (get_text_size cs ((c :: rest).take ((c :: rest).length - cd)) hs 0).1 ≤ W
      · rw [if_pos hfit]
        refine ⟨(c :: rest).take ((c :: rest).length - cd),
          (c :: rest).drop ((c :: rest).length - cd), rfl, ?_, List.take_append_drop .., Or.inl hfit⟩
        simpa using hemp
      · rw [if_neg hfit]
        exact ih (cd + 1)

/-! ### Termination of `wrap_text` (claim C4) -/

theorem take_ne_nil_of_joinSpace_ne_nil (words : List (List Char)) (k : Nat)
    (h : joinSpace (words.take k) ≠ []) : words.take k ≠ [] := by
  intro he
  rw [he] at h
  exact h rfl

theorem measure_drop_lt (text : List Char) (k : Nat) (hk1 : 1 ≤ k)
    (hk2 : k < (splitSpace text).length) :
    wrapMeasure (joinSpace ((splitSpace text).drop k)) < wrapMeasure text := by
  have ha : (splitSpace text).take k ≠ [] := by
    simp only [ne_eq, List.take_eq_nil_iff]
    push_neg
    exact ⟨by omega, splitSpace_ne_nil text⟩
  have hb : (splitSpace text).drop k ≠ [] := by
    simp only [ne_eq, List.drop_eq_nil_iff]
    omega
  have hsplit := joinSpace_append _ _ ha hb
  rw [List.take_append_drop, joinSpace_splitSpace] at hsplit
  have := wrapMeasure_append (joinSpace ((splitSpace text).take k))
    (' ' :: joinSpace ((splitSpace text).drop k))
  rw [← hsplit, wrapMeasure_space_cons] at this
  omega

theorem measure_drop1_lt (text : List Char) (htne : text ≠ []) :
    wrapMeasure (joinSpace ((splitSpace text).drop 1)) < wrapMeasure text := by
  rcases Nat.lt_or_ge 1 (splitSpace text).length with h | h
  · exact measure_drop_lt text 1 le_rfl h
  · have : (splitSpace text).drop 1 = [] := by
      rw [List.drop_eq_nil_iff]
      omega
    rw [this]
    show wrapMeasure [] < wrapMeasure text
    rw [wrapMeasure_nil]
    exact wrapMeasure_pos text htne

theorem measure_break_lt (text : List Char) (pw rw : List Char)
    (hpw : pw ≠ []) (hsp : ' ' ∉ pw)
    (hhead : pw ++ rw = (splitSpace text).headI) :
    wrapMeasure (rw ++ ' ' :: joinSpace ((splitSpace text).drop 1)) < wrapMeasure text := by
  rcases hw : splitSpace text with _ | ⟨w0, ws⟩
  · exact absurd hw (splitSpace_ne_nil text)
  have hw0 : pw ++ rw = w0 := by rw [hw] at hhead; simpa using hhead
  have hpwlen : 1 ≤ pw.length := List.length_pos.mpr hpw
  have hmpw : wrapMeasure pw = 2 * pw.length := wrapMeasure_of_no_space pw hsp
  have htext : text = joinSpace (w0 :: ws) := by rw [← hw, joinSpace_splitSpace]
  show wrapMeasure (rw ++ ' ' :: joinSpace (List.drop 1 (w0 :: ws))) < wrapMeasure text
  have hdrop1 : List.drop 1 (w0 :: ws) = ws := rfl
  rw [hdrop1, wrapMeasure_append, wrapMeasure_space_cons]
  cases ws with
  | nil =>
    have h1 : wrapMeasure text = wrapMeasure pw + wrapMeasure rw := by
      rw [htext]
      show wrapMeasure w0 = _
      rw [← hw0, wrapMeasure_append]
    have h2 : joinSpace ([] : List (List Char)) = [] := rfl
    rw [h1, h2, wrapMeasure_nil]
    omega
  | cons v vs =>
    have h1 : wrapMeasure text =
        wrapMeasure pw + (wrapMeasure rw + (wrapMeasure (joinSpace (v :: vs)) + 1)) := by
      rw [htext, joinSpace_cons_cons, ← hw0, List.append_assoc, wrapMeasure_append,
        wrapMeasure_append, wrapMeasure_space_cons]
    rw [h1]
    omega

/-! Unfolding equations for one step of `wrap_fuel` (the match on the
`wrapDrop` result reduced). -/

theorem wrap_fuel_succ_fit (cs : CharSizes) (W hs : Int) (bw : Bool) (fuel : Nat)
    (text : List Char) (hfit : (get_text_size cs text hs 0).1 ≤ W) :
    wrap_fuel cs W hs bw (fuel + 1) text = some [text] := by
  simp only [wrap_fuel]
  rw [if_pos hfit]

theorem wrap_fuel_succ_drop (cs : CharSizes) (W hs : Int) (bw : Bool) (fuel : Nat)
    (text : List Char) (p : List Char) (d : Nat)
    (hfit : ¬(get_text_size cs text hs 0).1 ≤ W)
    (h : wrapDrop cs hs W (splitSpace text) 1 (splitSpace text).length = some (p, d)) :
    wrap_fuel cs W hs bw (fuel + 1) text =
      (wrap_fuel cs W hs bw fuel
        (joinSpace ((splitSpace text).drop ((splitSpace text).length - d)))).map
        (p :: ·) := by
  simp only [wrap_fuel]
  rw [if_neg hfit, h]

theorem wrap_fuel_succ_break (cs : CharSizes) (W hs : Int) (fuel : Nat)
    (text : List Char)
    (hfit : ¬(get_text_size cs text hs 0).1 ≤ W)
    (h : wrapDrop cs hs W (splitSpace text) 1 (splitSpace text).length = none) :
    wrap_fuel cs W hs true (fuel + 1) text =
      (wrap_fuel cs W hs true fuel
        (if (charDrop cs hs W (splitSpace text).headI 1
              ((splitSpace text).headI.length + 1)).2.2 then
          joinSpace ((splitSpace text).drop 1)
        else
          (charDrop cs hs W (splitSpace text).headI 1
              ((splitSpace text).headI.length + 1)).2.1 ++
            ' ' :: joinSpace ((splitSpace text).drop 1))).map
        ((charDrop cs hs W (splitSpace text).headI 1
            ((splitSpace text).headI.length + 1)).1 :: ·) := by
  simp only [wrap_fuel]
  rw [if_neg hfit, h]
  rfl

theorem wrap_fuel_succ_oversize (cs : CharSizes) (W hs : Int) (fuel : Nat)
    (text : List Char)
    (hfit : ¬(get_text_size cs text hs 0).1 ≤ W)
    (h : wrapDrop cs hs W (splitSpace text) 1 (splitSpace text).length = none) :
    wrap_fuel cs W hs false (fuel + 1) text =
      (wrap_fuel cs W hs false fuel (joinSpace ((splitSpace text).drop 1))).map
        ((splitSpace text).headI :: ·) := by
  simp only [wrap_fuel]
  rw [if_neg hfit, h]
  rfl

theorem wrap_fuel_isSome (cs : CharSizes) (W hs : Int) (bw : Bool) (hW : 0 ≤ W) :
    ∀ fuel text, wrapMeasure text < fuel →
      (wrap_fuel cs W hs bw fuel text).isSome := by
  intro fuel
  induction fuel with
  | zero => intro text h; exact absurd h (Nat.not_lt_zero _)
  | succ fuel ih =>
    intro text hm
    by_cases hfit : (get_text_size cs text hs 0).1 ≤ W
    · rw [wrap_fuel_succ_fit cs W hs bw fuel text hfit]; rfl
    · have htne : text ≠ [] := by
        rintro rfl
        exact hfit (by simpa [get_text_size_nil] using hW)
      have hnsp : ∀ w ∈ splitSpace text, ' ' ∉ w := splitSpace_no_space text
      cases hdrop : wrapDrop cs hs W (splitSpace text) 1 (splitSpace text).length with
      | some pd =>
        obtain ⟨p, d⟩ := pd
        obtain ⟨hd1, hpeq, hpne, hpfit⟩ := wrapDrop_some_spec cs hs W _ _ _ _ _ hdrop
        rw [wrap_fuel_succ_drop cs W hs bw fuel text p d hfit hdrop]
        have hkne : (splitSpace text).take ((splitSpace text).length - d) ≠ [] :=
          take_ne_nil_of_joinSpace_ne_nil _ _ (hpeq ▸ hpne)
        have hk1 : 1 ≤ (splitSpace text).length - d := by
          rcases Nat.eq_zero_or_pos ((splitSpace text).length - d) with h0 | h1
          · rw [h0] at hkne; simp at hkne
          · exact h1
        have hklt : (splitSpace text).length - d < (splitSpace text).length := by omega
        have hmlt := measure_drop_lt text ((splitSpace text).length - d) hk1 hklt
        rw [Option.isSome_map']
        exact ih _ (by omega)
      | none =>
        cases bw with
        | true =>
          rw [wrap_fuel_succ_break cs W hs fuel text hfit hdrop]
          rw [Option.isSome_map']
          rcases hw : splitSpace text with _ | ⟨w0, ws⟩
          · exact absurd hw (splitSpace_ne_nil text)
          cases w0 with
          | nil =>
            simp only [List.headI_cons, charDrop_nil_spec, if_true,
              List.drop_succ_cons, List.drop_zero]
            have hlt := measure_drop1_lt text htne
            rw [hw] at hlt
            simp only [List.drop_succ_cons, List.drop_zero] at hlt
            exact ih _ (by omega)
          | cons c rest =>
            obtain ⟨pw, rw', hcd, hpwne, hpweq, -⟩ :=
              charDrop_cons_spec cs hs W c rest ((c :: rest).length + 1) 1
            simp only [List.headI_cons, hcd, Bool.false_eq_true, if_false,
              List.drop_succ_cons, List.drop_zero]
            have hsp : ' ' ∉ pw := by
              intro hmem
              have hmem2 : (' ' : Char) ∈ c :: rest :=
                hpweq ▸ List.mem_append_left rw' hmem
              exact hnsp (c :: rest) (hw ▸ List.mem_cons_self _ _) hmem2
            have hble := measure_break_lt text pw rw' hpwne hsp
              (by rw [hw]; simpa using hpweq)
            rw [hw] at hble
            simp only [List.drop_succ_cons, List.drop_zero] at hble
            exact ih _ (by omega)
        | false =>
          rw [wrap_fuel_succ_oversize cs W hs fuel text hfit hdrop]
          rw [Option.isSome_map']
          have := measure_drop1_lt text htne
          exact ih _ (by omega)

theorem wrap_fuel_some_ne_nil (cs : CharSizes) (W hs : Int) (bw : Bool)
    (fuel : Nat) (text : List Char) (lines : List (List Char))
    (h : wrap_fuel cs W hs bw fuel text = some lines) : lines ≠ [] := by
  cases fuel with
  | zero => simp [wrap_fuel] at h
  | succ fuel =>
    by_cases hfit : (get_text_size cs text hs 0).1 ≤ W
    · rw [wrap_fuel_succ_fit cs W hs bw fuel text hfit] at h
      obtain rfl : [text] = lines := by simpa using h
      simp
    · cases hdrop : wrapDrop cs hs W (splitSpace text) 1 (splitSpace text).length with
      | some pd =>
        obtain ⟨p, d⟩ := pd
        rw [wrap_fuel_succ_drop cs W hs bw fuel text p d hfit hdrop] at h
        obtain ⟨ls, -, rfl⟩ := Option.map_eq_some'.mp h
        simp
      | none =>
        cases bw with
        | true =>
          rw [wrap_fuel_succ_break cs W hs fuel text hfit hdrop] at h
          obtain ⟨ls, -, rfl⟩ := Option.map_eq_some'.mp h
          simp
        | false =>
          rw [wrap_fuel_succ_oversize cs W hs fuel text hfit hdrop] at h
          obtain ⟨ls, -, rfl⟩ := Option.map_eq_some'.mp h
          simp

theorem splitSpace_space_cons (x : List Char) :
    splitSpace (' ' :: x) = [] :: splitSpace x := by
  simp [splitSpace]

theorem wrapDrop_isSome_of_head_fit (cs : CharSizes) (hs W : Int)
    (w0 : List Char) (ws : List (List Char))
    (hw0ne : w0 ≠ []) (hfit : (get_text_size cs w0 hs 0).1 ≤ W) :
    ∀ gas d, d + gas = (w0 :: ws).length + 1 → 1 ≤ d →
      d + 1 ≤ (w0 :: ws).length →
      (wrapDrop cs hs W (w0 :: ws) d gas).isSome := by
  intro gas
  induction gas with
  | zero =>
    intro d h1 h2 h3
    omega
  | succ gas ih =>
    intro d h1 h2 h3
    simp only [wrapDrop]
    have hk1 : 1 ≤ (w0 :: ws).length - d := by omega
    have hpne : joinSpace ((w0 :: ws).take ((w0 :: ws).length - d)) ≠ [] := by
      rcases Nat.lt_or_ge ((w0 :: ws).length - d) 2 with hk | hk
      · have hke : (w0 :: ws).length - d = 1 := by omega
        rw [hke]
        exact hw0ne
      · have hlen : 2 ≤ ((w0 :: ws).take ((w0 :: ws).length - d)).length := by
          rw [List.length_take]
          omega
        rcases ht : (w0 :: ws).take ((w0 :: ws).length - d) with _ | ⟨a, _ | ⟨b, t⟩⟩
        · rw [ht] at hlen; simp at hlen
        · rw [ht] at hlen; simp at hlen
        · exact joinSpace_ne_nil_of_two a b t
    rw [if_neg (by simpa using hpne)]
    by_cases hfit2 :
        (get_text_size cs (joinSpace ((w0 :: ws).take ((w0 :: ws).length - d))) hs 0).1 ≤ W
    · rw [if_pos hfit2]; rfl
    · rw [if_neg hfit2]
      have hk2 : 2 ≤ (w0 :: ws).length - d := by
        by_contra hlt
        have hke : (w0 :: ws).length - d = 1 := by omega
        rw [hke] at hfit2
        exact hfit2 hfit
      exact ih (d + 1) (by omega) (by omega) (by omega)

/-! ### Claims C3, C4, C5 -/

/-- C4 counterexample: with the target width `-1` and the empty text (any
font table, `h_spacing = 0`, `break_words = False`), the recursion of
`wrap_text` never terminates: no recursion budget is ever enough.  Even the
empty text measures `(0, 0)`, which does not fit a negative width, and the
recursion re-enters itself on the empty remainder forever. -/
theorem C4_counterexample : ¬ wrapTerminatesOn csNone (-1) [] 0 false := by
  have hnone : ∀ fuel, wrap_fuel csNone (-1) 0 false fuel [] = none := by
    intro fuel
    induction fuel with
    | zero => rfl
    | succ fuel ih =>
      have hfit : ¬(get_text_size csNone [] 0 0).1 ≤ (-1 : Int) := by
        rw [get_text_size_nil]
        norm_num
      have hdrop : wrapDrop csNone 0 (-1) (splitSpace []) 1 (splitSpace []).length =
          none := rfl
      rw [wrap_fuel_succ_oversize csNone (-1) 0 fuel [] hfit hdrop]
      have hrem : joinSpace ((splitSpace ([] : List Char)).drop 1) = [] := rfl
      rw [hrem, ih]
      rfl
  rintro ⟨fuel, hf⟩
  rw [hnone fuel] at hf
  simp at hf

/-- C4 (amended): the `wrap_text` recursion terminates whenever the target
width is nonnegative — the budget `wrapBound text` (length plus non-space
count plus one) always suffices, because each recursive step strictly
decreases length-plus-non-space-count.  For a negative width the recursion
diverges (see the counterexample), since not even the empty text fits. -/
theorem C4_wrap_terminates_nonneg (cs : CharSizes) (W h_spacing : Int)
    (break_words : Bool) (text : List Char) (hW : 0 ≤ W) :
    (wrap_fuel cs W h_spacing break_words (wrapBound text) text).isSome :=
  wrap_fuel_isSome cs W h_spacing break_words hW (wrapBound text) text
    (Nat.lt_succ_self _)

/-- C4 witness: the budget suffices on a concrete over-wide input with
nonnegative width. -/
theorem C4_witness :
    (wrap_fuel csAB 5 0 true (wrapBound ['a']) ['a']).isSome :=
  C4_wrap_terminates_nonneg csAB 5 0 true ['a'] (by norm_num)

/-- C3 counterexample: with glyph `a` 10 px wide, width 5 and
`break_words = True`, `wrap_text` returns the line `"a"`, which measures
10 > 5: with `break_words` true a single-character line may still exceed the
target width (the "char break fail" path takes one character
unconditionally), so the claim "when break_words is true no returned line
exceeds W" is false. -/
theorem C3_counterexample :
    wrap_text csAB 5 ['a'] 0 true = [['a'], [' ']] ∧
      ¬(get_text_size csAB ['a'] 0 0).1 ≤ 5 := by
  constructor
  · decide
  · decide

/-- C3 (amended): every line returned by `wrap_text` measures at most `W`,
except that with `break_words = False` a line that is a single space-free
word may exceed `W`, and with `break_words = True` a line of at most one
character may exceed `W` (a word whose very first character alone is too
wide is emitted as that one character). -/
theorem C3_wrap_line_bound (cs : CharSizes) (W h_spacing : Int)
    (break_words : Bool) :
    ∀ fuel text lines,
      wrap_fuel cs W h_spacing break_words fuel text = some lines →
      ∀ l ∈ lines, (get_text_size cs l h_spacing 0).1 ≤ W ∨
        (break_words = false ∧ ' ' ∉ l) ∨
        (break_words = true ∧ l.length ≤ 1) := by
  intro fuel
  induction fuel with
  | zero => intro text lines h; simp [wrap_fuel] at h
  | succ fuel ih =>
    intro text lines h
    by_cases hfit : (get_text_size cs text h_spacing 0).1 ≤ W
    · rw [wrap_fuel_succ_fit cs W h_spacing break_words fuel text hfit] at h
      obtain rfl : [text] = lines := by simpa using h
      intro l hl
      rw [List.mem_singleton] at hl
      subst hl
      exact Or.inl hfit
    · cases hdrop : wrapDrop cs h_spacing W (splitSpace text) 1
          (splitSpace text).length with
      | some pd =>
        obtain ⟨p, d⟩ := pd
        rw [wrap_fuel_succ_drop cs W h_spacing break_words fuel text p d hfit hdrop] at h
        obtain ⟨ls, hls, rfl⟩ := Option.map_eq_some'.mp h
        obtain ⟨-, -, -, hpfit⟩ := wrapDrop_some_spec cs h_spacing W _ _ _ _ _ hdrop
        intro l hl
        rcases List.mem_cons.mp hl with rfl | hl
        · exact Or.inl hpfit
        · exact ih _ ls hls l hl
      | none =>
        cases break_words with
        | false =>
          rw [wrap_fuel_succ_oversize cs W h_spacing fuel text hfit hdrop] at h
          obtain ⟨ls, hls, rfl⟩ := Option.map_eq_some'.mp h
          intro l hl
          rcases List.mem_cons.mp hl with rfl | hl
          · refine Or.inr (Or.inl ⟨rfl, ?_⟩)
            rcases hw : splitSpace text with _ | ⟨w0, ws⟩
            · exact absurd hw (splitSpace_ne_nil text)
            · rw [List.headI_cons]
              exact splitSpace_no_space text w0 (hw ▸ List.mem_cons_self _ _)
          · exact ih _ ls hls l hl
        | true =>
          rw [wrap_fuel_succ_break cs W h_spacing fuel text hfit hdrop] at h
          obtain ⟨ls, hls, rfl⟩ := Option.map_eq_some'.mp h
          intro l hl
          rcases List.mem_cons.mp hl with rfl | hl
          · rcases hw : splitSpace text with _ | ⟨w0, ws⟩
            · exact absurd hw (splitSpace_ne_nil text)
            cases w0 with
            | nil =>
              simp only [List.headI_cons, charDrop_nil_spec]
              exact Or.inr (Or.inr ⟨by simp, by simp⟩)
            | cons c rest =>
              obtain ⟨pw, rw', hcd, -, -, hfl⟩ :=
                charDrop_cons_spec cs h_spacing W c rest ((c :: rest).length + 1) 1
              simp only [List.headI_cons, hcd]
              rcases hfl with hfl | hfl
              · exact Or.inl hfl
              · exact Or.inr (Or.inr ⟨by simp, by omega⟩)
          · exact ih _ ls hls l hl

/-- C3 witness: the line `" "` of the concrete wrap fits within width 5. -/
theorem C3_witness :
    (get_text_size csAB [' '] 0 0).1 ≤ 5 ∨
      (true = false ∧ ' ' ∉ [' ']) ∨ (true = true ∧ [' '].length ≤ 1) :=
  C3_wrap_line_bound csAB 5 0 true (wrapBound ['a']) ['a'] [['a'], [' ']]
    (by decide) [' '] (by decide)

/-- C5 counterexample: with glyphs `a` and `b` 10 px wide, width 15,
`h_spacing = 0` and `break_words = True`, the word `"ab"` is broken into the
lines `"a"` and `"b "`; joining them with a single space gives `"a b "`,
which splits into the words `["a", "b", ""]`, not the original `["ab"]`: the
word sequence is not reproduced once a word is broken mid-word. -/
theorem C5_counterexample :
    splitSpace (joinSpace (wrap_text csAB 15 ['a', 'b'] 0 true)) ≠
      splitSpace ['a', 'b'] := by
  decide

/-- C5 (amended): whenever every word of the text individually measures
within `W` (so no word is ever force-broken or emitted oversized),
concatenating the lines returned by `wrap_text` with single spaces
reproduces exactly the original word sequence: splitting the concatenation
on spaces yields the same word list as splitting the input. -/
theorem C5_reconstruction (cs : CharSizes) (W h_spacing : Int)
    (break_words : Bool) :
    ∀ fuel text lines,
      (∀ w ∈ splitSpace text, (get_text_size cs w h_spacing 0).1 ≤ W) →
      wrap_fuel cs W h_spacing break_words fuel text = some lines →
      splitSpace (joinSpace lines) = splitSpace text := by
  intro fuel
  induction fuel with
  | zero => intro text lines _ h; simp [wrap_fuel] at h
  | succ fuel ih =>
    intro text lines hfitall h
    by_cases hfit : (get_text_size cs text h_spacing 0).1 ≤ W
    · rw [wrap_fuel_succ_fit cs W h_spacing break_words fuel text hfit] at h
      obtain rfl : [text] = lines := by simpa using h
      rfl
    · cases hdrop : wrapDrop cs h_spacing W (splitSpace text) 1
          (splitSpace text).length with
      | some pd =>
        obtain ⟨p, d⟩ := pd
        rw [wrap_fuel_succ_drop cs W h_spacing break_words fuel text p d hfit hdrop] at h
        obtain ⟨ls, hls, rfl⟩ := Option.map_eq_some'.mp h
        obtain ⟨hd1, hpeq, hpne, -⟩ := wrapDrop_some_spec cs h_spacing W _ _ _ _ _ hdrop
        have hkne : (splitSpace text).take ((splitSpace text).length - d) ≠ [] :=
          take_ne_nil_of_joinSpace_ne_nil _ _ (hpeq ▸ hpne)
        have hk1 : 1 ≤ (splitSpace text).length - d := by
          rcases Nat.eq_zero_or_pos ((splitSpace text).length - d) with h0 | h1
          · rw [h0] at hkne; simp at hkne
          · exact h1
        have hklt : (splitSpace text).length - d < (splitSpace text).length := by
          omega
        have hdropne : (splitSpace text).drop ((splitSpace text).length - d) ≠ [] := by
          simp only [ne_eq, List.drop_eq_nil_iff]
          omega
        have hsubrec :
            splitSpace (joinSpace ((splitSpace text).drop ((splitSpace text).length - d))) =
              (splitSpace text).drop ((splitSpace text).length - d) :=
          splitSpace_joinSpace _ hdropne
            (fun w hw => splitSpace_no_space text w (List.drop_subset _ _ hw))
        have hrec := ih _ ls
          (by
            rw [hsubrec]
            intro w hw
            exact hfitall w (List.drop_subset _ _ hw)) hls
        have hlsne : ls ≠ [] := wrap_fuel_some_ne_nil cs W h_spacing break_words fuel _ ls hls
        rcases ls with _ | ⟨l0, ls'⟩
        · exact absurd rfl hlsne
        rw [joinSpace_cons_cons, splitSpace_append_space]
        have hsp_p : splitSpace p = (splitSpace text).take ((splitSpace text).length - d) := by
          rw [hpeq]
          exact splitSpace_joinSpace _ hkne
            (fun w hw => splitSpace_no_space text w (List.take_subset _ _ hw))
        rw [hsp_p, hrec, hsubrec, List.take_append_drop]
      | none =>
        rcases hw : splitSpace text with _ | ⟨w0, ws⟩
        · exact absurd hw (splitSpace_ne_nil text)
        have hw0fit : (get_text_size cs w0 h_spacing 0).1 ≤ W :=
          hfitall w0 (hw ▸ List.mem_cons_self _ _)
        have hw0nil : w0 = [] := by
          by_contra hne
          cases ws with
          | nil =>
            have htw : text = w0 := by
              conv_lhs => rw [← joinSpace_splitSpace text, hw]
              rfl
            exact hfit (htw ▸ hw0fit)
          | cons v vs =>
            have hiso := wrapDrop_isSome_of_head_fit cs h_spacing W w0 (v :: vs)
              hne hw0fit (w0 :: v :: vs).length 1 (by omega) le_rfl
              (by simp only [List.length_cons]; omega)
            rw [hw] at hdrop
            rw [hdrop] at hiso
            simp at hiso
        subst hw0nil
        have hwsne : ws ≠ [] := by
          rintro rfl
          have htnil : text = [] := by
            conv_lhs => rw [← joinSpace_splitSpace text, hw]
            rfl
          rw [htnil, get_text_size_nil] at hfit
          rw [get_text_size_nil] at hw0fit
          exact hfit hw0fit
        have hsub : splitSpace (joinSpace ws) = ws :=
          splitSpace_joinSpace ws hwsne
            (fun w hw2 => splitSpace_no_space text w (hw ▸ List.mem_cons_of_mem _ hw2))
        have hfitws : ∀ w ∈ splitSpace (joinSpace ws),
            (get_text_size cs w h_spacing 0).1 ≤ W := by
          rw [hsub]
          intro w hw2
          exact hfitall w (hw ▸ List.mem_cons_of_mem _ hw2)
        cases break_words with
        | true =>
          rw [wrap_fuel_succ_break cs W h_spacing fuel text hfit hdrop, hw] at h
          simp only [List.headI_cons, charDrop_nil_spec, if_true,
            List.drop_succ_cons, List.drop_zero] at h
          obtain ⟨ls, hls, rfl⟩ := Option.map_eq_some'.mp h
          have hrec := ih _ ls hfitws hls
          have hlsne : ls ≠ [] := wrap_fuel_some_ne_nil cs W h_spacing true fuel _ ls hls
          rcases ls with _ | ⟨l0, ls'⟩
          · exact absurd rfl hlsne
          rw [joinSpace_cons_cons, List.nil_append, splitSpace_space_cons, hrec, hsub]
        | false =>
          rw [wrap_fuel_succ_oversize cs W h_spacing fuel text hfit hdrop, hw] at h
          simp only [List.headI_cons, List.drop_succ_cons, List.drop_zero] at h
          obtain ⟨ls, hls, rfl⟩ := Option.map_eq_some'.mp h
          have hrec := ih _ ls hfitws hls
          have hlsne : ls ≠ [] := wrap_fuel_some_ne_nil cs W h_spacing false fuel _ ls hls
          rcases ls with _ | ⟨l0, ls'⟩
          · exact absurd rfl hlsne
          rw [joinSpace_cons_cons, List.nil_append, splitSpace_space_cons, hrec, hsub]

/-- C5 witness: a concrete wrap where every word fits (width 25, `a`/`b`
10 px, `h_spacing = 1`) reproduces the original word sequence. -/
theorem C5_witness :
    splitSpace (joinSpace [['a', ' ', 'b'], ['a', ' ', 'b']]) =
      splitSpace ['a', ' ', 'b', ' ', 'a', ' ', 'b'] :=
  C5_reconstruction csAB 25 1 false (wrapBound ['a', ' ', 'b', ' ', 'a', ' ', 'b'])
    ['a', ' ', 'b', ' ', 'a', ' ', 'b'] [['a', ' ', 'b'], ['a', ' ', 'b']]
    (by decide) (by decide)

theorem splitlinesGo_no_break (l : List Char) :
    ∀ acc, (∀ c ∈ l, isLineBreak c = false) →
      splitlinesGo l acc = [acc.reverse ++ l] := by
  induction l with
  | nil => intro acc _; simp [splitlinesGo]
  | cons c rest ih =>
    intro acc h
    have hc : isLineBreak c = false := h c (List.mem_cons_self c rest)
    have hrest : ∀ x ∈ rest, isLineBreak x = false :=
      fun x hx => h x (List.mem_cons_of_mem c hx)
    rw [splitlinesGo.eq_def]
    simp only [hc, Bool.false_eq_true, if_false]
    rw [ih (c :: acc) hrest]
    simp

theorem splitlines_no_break (text : List Char) (hne : text ≠ [])
    (h : ∀ c ∈ text, isLineBreak c = false) : splitlines text = [text] := by
  unfold splitlines
  rw [if_neg (by simpa using hne), splitlinesGo_no_break text [] h]
  simp

theorem lineWidth_eq_sumAdvances (cs : CharSizes) (hs : Int) (l : List Char) :
    lineWidth cs hs l = sumAdvances cs l + ((l.length - 1 : Nat) : Int) * hs := by
  induction l with
  | nil => simp [lineWidth, sumAdvances]
  | cons c rest ih =>
    cases rest with
    | nil => simp [lineWidth, sumAdvances]
    | cons d rest' =>
      show charAdvance cs c + hs + lineWidth cs hs (d :: rest') = _
      rw [ih]
      simp only [sumAdvances, List.map_cons, List.sum_cons, List.length_cons]
      push_cast
      ring

theorem lineMaxHeight_step (cs : CharSizes) (a : Int) (c : Char) :
    (match cs (get_char_code c) with
      | some p => if p.2 > a then p.2 else a
      | none => a) =
    (match (cs (get_char_code c)).map Prod.snd with
      | some h => max a h
      | none => a) := by
  cases hcs : cs (get_char_code c) with
  | none => simp
  | some p =>
    show (if p.2 > a then p.2 else a) = max a p.2
    rcases lt_or_le a p.2 with h | h
    · rw [if_pos h, max_eq_right h.le]
    · rw [if_neg (not_lt.mpr h), max_eq_left h]

theorem lineMaxHeight_eq_foldl (cs : CharSizes) (l : List Char) :
    ∀ a : Int,
      l.foldl
        (fun mh c =>
          match cs (get_char_code c) with
          | some p => if p.2 > mh then p.2 else mh
          | none => mh) a =
      (l.filterMap (fun c => (cs (get_char_code c)).map Prod.snd)).foldl max a := by
  induction l with
  | nil => intro a; simp
  | cons c rest ih =>
    intro a
    rw [List.foldl_cons, lineMaxHeight_step cs a c, List.filterMap_cons]
    cases (cs (get_char_code c)).map Prod.snd with
    | none => exact ih a
    | some h => simpa using ih (max a h)

theorem lineMaxHeight_eq (cs : CharSizes) (l : List Char) :
    lineMaxHeight cs l = maxGlyphHeight cs l :=
  lineMaxHeight_eq_foldl cs l 0

theorem textSizeLoop_fst (cs : CharSizes) (hs vs : Int) (lines : List (List Char)) :
    (textSizeLoop cs hs vs lines).1 = (lines.map (lineWidth cs hs)).sum := by
  induction lines with
  | nil => simp [textSizeLoop]
  | cons l rest ih =>
    cases rest with
    | nil => simp [textSizeLoop]
    | cons l2 rest' =>
      show lineWidth cs hs l + (textSizeLoop cs hs vs (l2 :: rest')).1 = _
      rw [ih]
      simp

theorem textSizeLoop_snd (cs : CharSizes) (hs vs : Int) (lines : List (List Char)) :
    (textSizeLoop cs hs vs lines).2 =
      (lines.map (lineMaxHeight cs)).sum + ((lines.length - 1 : Nat) : Int) * vs := by
  induction lines with
  | nil => simp [textSizeLoop]
  | cons l rest ih =>
    cases rest with
    | nil => simp [textSizeLoop]
    | cons l2 rest' =>
      show lineMaxHeight cs l + vs + (textSizeLoop cs hs vs (l2 :: rest')).2 = _
      rw [ih]
      simp only [List.map_cons, List.sum_cons, List.length_cons]
      push_cast
      ring

/-! ### Claims C6, C8, C9 -/

/-- C6 counterexample: for the two-line text `"a\nb"` (both glyphs 10 px wide,
`h_spacing = 0`), `get_text_size` returns total width 20, not the width 10 of
the first line alone: the width is accumulated over all lines, so the claim
"width equals the width of the first line only" is false. -/
theorem C6_counterexample :
    (get_text_size csAB ['a', '\n', 'b'] 0 0).1 ≠
      (get_text_size csAB ((splitlines ['a', '\n', 'b']).headI) 0 0).1 := by
  decide

/-- C6 (amended): for every metadata table, spacing and text, the width
returned by `get_text_size` is the sum of the widths of **all** split lines
(each line's advance widths plus its internal `h_spacing` gaps), not the width
of the first line only. -/
theorem C6_width_sums_all_lines (cs : CharSizes) (hs vs : Int) (text : List Char) :
    (get_text_size cs text hs vs).1 =
      ((splitlines text).map (lineWidth cs hs)).sum :=
  textSizeLoop_fst cs hs vs (splitlines text)

/-- C8: for a single line (no line-break characters) `get_text_size` returns
width = the sum of the advance widths of the characters that have a metadata
entry (missing entries contribute zero) plus `h_spacing` between consecutive
characters but not after the last; and for every text it returns height = the
sum over the split lines of each line's maximum glyph height plus `v_spacing`
between lines but not after the last. -/
theorem C8_measure_formulas (cs : CharSizes) (h_spacing v_spacing : Int)
    (text : List Char) :
    ((∀ c ∈ text, isLineBreak c = false) →
      (get_text_size cs text h_spacing v_spacing).1 =
        sumAdvances cs text + ((text.length - 1 : Nat) : Int) * h_spacing) ∧
    (get_text_size cs text h_spacing v_spacing).2 =
      ((splitlines text).map (maxGlyphHeight cs)).sum +
        (((splitlines text).length - 1 : Nat) : Int) * v_spacing := by
  constructor
  · intro h
    rcases eq_or_ne text [] with rfl | hne
    · simp [get_text_size, splitlines, textSizeLoop, sumAdvances]
    · unfold get_text_size
      rw [splitlines_no_break text hne h]
      show (textSizeLoop cs h_spacing v_spacing [text]).1 = _
      simp only [textSizeLoop]
      exact lineWidth_eq_sumAdvances cs h_spacing text
  · unfold get_text_size
    rw [textSizeLoop_snd]
    congr 1
    congr 1
    exact List.map_congr_left fun l _ => lineMaxHeight_eq cs l

/-- C8 witness: the single-line formula evaluated on `"ab"` (advances 10 and
10, `h_spacing = 3`) and the height formula on the same text. -/
theorem C8_witness :
    (get_text_size csAB ['a', 'b'] 3 7).1 =
      sumAdvances csAB ['a', 'b'] + (((['a', 'b'].length - 1 : Nat)) : Int) * 3 ∧
    (get_text_size csAB ['a', 'b'] 3 7).2 =
      ((splitlines ['a', 'b']).map (maxGlyphHeight csAB)).sum +
        (((splitlines ['a', 'b']).length - 1 : Nat) : Int) * 7 :=
  ⟨(C8_measure_formulas csAB 3 7 ['a', 'b']).1 (by decide),
   (C8_measure_formulas csAB 3 7 ['a', 'b']).2⟩

/-- C9: `h_spacing` is charged between consecutive characters even when the
characters have no metadata entry: a single line of `n ≥ 1` characters, none
of which has an entry, measures width `(n − 1) · h_spacing` and height 0. -/
theorem C9_spacing_without_entries (cs : CharSizes) (hs vs : Int)
    (l : List Char) (hne : l ≠ []) (hbr : ∀ c ∈ l, isLineBreak c = false)
    (hcs : ∀ c ∈ l, cs (get_char_code c) = none) :
    get_text_size cs l hs vs = (((l.length - 1 : Nat) : Int) * hs, 0) := by
  unfold get_text_size
  rw [splitlines_no_break l hne hbr]
  show textSizeLoop cs hs vs [l] = _
  simp only [textSizeLoop]
  have hw : lineWidth cs hs l = ((l.length - 1 : Nat) : Int) * hs := by
    rw [lineWidth_eq_sumAdvances]
    have : sumAdvances cs l = 0 := by
      unfold sumAdvances
      rw [List.sum_eq_zero]
      intro x hx
      rcases List.mem_map.mp hx with ⟨c, hc, rfl⟩
      simp [charAdvance, hcs c hc]
    rw [this, zero_add]
  have hh : lineMaxHeight cs l = 0 := by
    rw [lineMaxHeight_eq]
    unfold maxGlyphHeight
    have : l.filterMap (fun c => (cs (get_char_code c)).map Prod.snd) = [] := by
      rw [List.filterMap_eq_nil_iff]
      intro c hc
      simp [hcs c hc]
    rw [this]
    rfl
  rw [hw, hh]

/-- C9 witness: two entry-less characters with `h_spacing = 5` measure
`(5, 0)`. -/
theorem C9_witness :
    get_text_size csAB ['x', 'y'] 5 9 = (((2 - 1 : Nat) : Int) * 5, 0) :=
  C9_spacing_without_entries csAB 5 9 ['x', 'y'] (by decide) (by decide) (by decide)

/-! ### Lemmas about the canvas composer -/

theorem render_character_dims (glyphs : Nat → Option Img) (img : Img) (x y : Int)
    (fw : Option Nat) (code : Nat) :
    (render_character glyphs img x y fw code).2.2.2.w = img.w ∧
      (render_character glyphs img x y fw code).2.2.2.h = img.h := by
  unfold render_character
  cases glyphs code with
  | none => exact ⟨rfl, rfl⟩
  | some g =>
    cases fw with
    | none => exact ⟨rfl, rfl⟩
    | some n => exact ⟨rfl, rfl⟩

theorem render_character_y (glyphs : Nat → Option Img) (img : Img) (x y : Int)
    (fw : Option Nat) (code : Nat) :
    (render_character glyphs img x y fw code).2.2.1 = y := by
  unfold render_character
  cases glyphs code with
  | none => rfl
  | some g =>
    cases fw with
    | none => rfl
    | some n => rfl

theorem renderChars_dims (glyphs : Nat → Option Img) (cw : Option Nat)
    (sp : Int) : ∀ (text : List Char) (img : Img) (x y : Int),
    (renderChars glyphs cw sp text img x y).1.w = img.w ∧
      (renderChars glyphs cw sp text img x y).1.h = img.h := by
  intro text
  induction text with
  | nil => intro img x y; exact ⟨rfl, rfl⟩
  | cons c rest ih =>
    intro img x y
    have h := render_character_dims glyphs img x y cw (get_char_code c)
    simp only [renderChars]
    constructor
    · rw [(ih _ _ _).1, h.1]
    · rw [(ih _ _ _).2, h.2]

theorem applyAlignment_dims (width height : Nat) (ha : HAlign) (va : VAlign)
    (img : Img) (hw : img.w = width) (hh : img.h = height) :
    (applyAlignment width height ha va img).w = width ∧
      (applyAlignment width height ha va img).h = height := by
  unfold applyAlignment
  split
  · cases hbb : imgGetbbox (imgInvert img) with
    | none => exact ⟨hw, hh⟩
    | some p =>
      obtain ⟨l, u, r, b⟩ := p
      exact ⟨rfl, rfl⟩
  · exact ⟨hw, hh⟩

theorem render_text_dims (env : GlyphEnv) (width height : Nat)
    (pad_left pad_top : Int) (ha : HAlign) (va : VAlign) (inverted : Bool)
    (spacing : Int) (cw : Option Nat) (text : List Char) :
    (render_text env width height pad_left pad_top ha va inverted spacing
        cw text).w = width ∧
      (render_text env width height pad_left pad_top ha va inverted spacing
        cw text).h = height := by
  unfold render_text
  have hc := renderChars_dims env.glyphs cw spacing text
    (imgNew width height img_bg) pad_left pad_top
  have ha2 := applyAlignment_dims width height ha va _ hc.1 hc.2
  cases inverted with
  | false => simpa using ha2
  | true =>
    simp only [if_true]
    exact ⟨ha2.1, ha2.2⟩

theorem renderRenderLine_dims (env : GlyphEnv) (cs : CharSizes) (width : Nat)
    (pad_left : Int) (ha : HAlign) (hs vs : Int) (cw : Option Nat)
    (acc acc2 : Img × Int) (l : List Char)
    (h : renderRenderLine env cs width pad_left ha hs vs cw acc l =
      Except.ok acc2) :
    acc2.1.w = acc.1.w ∧ acc2.1.h = acc.1.h := by
  simp only [renderRenderLine] at h
  cases hni : newImageChecked
      (get_text_size cs
        (if (pyStrip l).isEmpty then [' '] else pyStrip l) hs vs).1
      (get_text_size cs
        (if (pyStrip l).isEmpty then [' '] else pyStrip l) hs vs).2 img_bg with
  | error e => rw [hni] at h; exact absurd h (by simp)
  | ok line_img0 =>
    rw [hni] at h
    obtain rfl : _ = acc2 := by simpa using h
    exact ⟨rfl, rfl⟩

theorem renderRenderLines_dims (env : GlyphEnv) (cs : CharSizes) (width : Nat)
    (pad_left : Int) (ha : HAlign) (hs vs : Int) (cw : Option Nat) :
    ∀ (ls : List (List Char)) (acc acc2 : Img × Int),
      renderRenderLines env cs width pad_left ha hs vs cw ls acc =
        Except.ok acc2 →
      acc2.1.w = acc.1.w ∧ acc2.1.h = acc.1.h := by
  intro ls
  induction ls with
  | nil =>
    intro acc acc2 h
    obtain rfl : acc = acc2 := by simpa [renderRenderLines] using h
    exact ⟨rfl, rfl⟩
  | cons l rest ih =>
    intro acc acc2 h
    simp only [renderRenderLines] at h
    cases hstep : renderRenderLine env cs width pad_left ha hs vs cw acc l with
    | error e => rw [hstep] at h; exact absurd h (by simp)
    | ok accm =>
      rw [hstep] at h
      have h1 := renderRenderLine_dims env cs width pad_left ha hs vs cw
        acc accm l hstep
      have h2 := ih accm acc2 h
      exact ⟨h2.1.trans h1.1, h2.2.trans h1.2⟩

theorem renderLogicalLines_dims (env : GlyphEnv) (cs : CharSizes) (width : Nat)
    (pad_left : Int) (ha : HAlign) (hs vs : Int) (cw : Option Nat)
    (aw bw : Bool) :
    ∀ (ls : List (List Char)) (acc acc2 : Img × Int),
      renderLogicalLines env cs width pad_left ha hs vs cw aw bw ls acc =
        Except.ok acc2 →
      acc2.1.w = acc.1.w ∧ acc2.1.h = acc.1.h := by
  intro ls
  induction ls with
  | nil =>
    intro acc acc2 h
    obtain rfl : acc = acc2 := by simpa [renderLogicalLines] using h
    exact ⟨rfl, rfl⟩
  | cons line rest ih =>
    intro acc acc2 h
    simp only [renderLogicalLines] at h
    cases hstep : renderRenderLines env cs width pad_left ha hs vs cw
        (if aw then wrap_text cs (width : Int) line hs bw else [line]) acc with
    | error e => rw [hstep] at h; exact absurd h (by simp)
    | ok accm =>
      rw [hstep] at h
      have h1 := renderRenderLines_dims env cs width pad_left ha hs vs cw
        _ acc accm hstep
      have h2 := ih accm acc2 h
      exact ⟨h2.1.trans h1.1, h2.2.trans h1.2⟩

theorem imgGetbbox_none_of_zero (img : Img)
    (h : ∀ i, i < img.w → ∀ j, j < img.h → img.px i j = 0) :
    imgGetbbox img = none := by
  unfold imgGetbbox
  have hxs : (List.range img.w).filter
      (fun x => (List.range img.h).any (fun y => img.px x y != 0)) = [] := by
    rw [List.filter_eq_nil_iff]
    intro x hx
    rw [List.mem_range] at hx
    simp only [List.any_eq_true, List.mem_range, bne_iff_ne, ne_eq, not_exists,
      not_and, not_not]
    intro y hy
    exact h x hx y hy
  rw [hxs]

theorem applyAlignment_of_blank (width height : Nat) (ha : HAlign)
    (va : VAlign) (img : Img)
    (hbb : imgGetbbox (imgInvert img) = none) :
    applyAlignment width height ha va img = img := by
  unfold applyAlignment
  split
  · rw [hbb]
  · rfl

/-! ### Claims C1, C2, C7, C10 -/

/-- C1: for every configuration and every text, `render_text` returns a
bitmap of exactly the requested `(width, height)`, and whenever
`render_multiline_text` returns a bitmap at all, that bitmap also has
exactly the requested `(width, height)`: no input text, overflow or missing
glyph changes the output size. -/
theorem C1_output_dimensions (env : GlyphEnv) (width height : Nat)
    (pad_left pad_top : Int) (halign : HAlign) (valign : VAlign)
    (inverted : Bool) (spacing h_spacing v_spacing : Int)
    (char_width : Option Nat) (text : List Char) (auto_wrap break_words : Bool) :
    ((render_text env width height pad_left pad_top halign valign inverted
        spacing char_width text).w = width ∧
      (render_text env width height pad_left pad_top halign valign inverted
        spacing char_width text).h = height) ∧
    ∀ p, (render_multiline_text env width height pad_left pad_top halign valign
        inverted h_spacing v_spacing char_width text auto_wrap break_words).map
        (fun img => (img.w, img.h)) = Except.ok p → p = (width, height) := by
  constructor
  · exact render_text_dims env width height pad_left pad_top halign valign
      inverted spacing char_width text
  · intro p hp
    cases hmd : env.metadata with
    | none =>
      have hmt : render_multiline_text env width height pad_left pad_top halign
          valign inverted h_spacing v_spacing char_width text auto_wrap
          break_words = Except.error RenderError.metadataMissing := by
        unfold render_multiline_text
        rw [hmd]
      rw [hmt] at hp
      exact absurd hp (by simp [Except.map])
    | some cs =>
      have hmt : render_multiline_text env width height pad_left pad_top halign
          valign inverted h_spacing v_spacing char_width text auto_wrap
          break_words =
          match renderLogicalLines env cs width pad_left halign h_spacing
              v_spacing char_width auto_wrap break_words (splitlines text)
              (imgNew width height img_bg, pad_top) with
          | Except.error e => Except.error e
          | Except.ok acc =>
            Except.ok (if inverted then
              imgInvert (applyAlignment width height halign valign acc.1)
            else applyAlignment width height halign valign acc.1) := by
        unfold render_multiline_text
        rw [hmd]
      rw [hmt] at hp
      cases hll : renderLogicalLines env cs width pad_left halign h_spacing
          v_spacing char_width auto_wrap break_words (splitlines text)
          (imgNew width height img_bg, pad_top) with
      | error e =>
        rw [hll] at hp
        exact absurd hp (by simp [Except.map])
      | ok acc =>
        rw [hll] at hp
        have hd := renderLogicalLines_dims env cs width pad_left halign
          h_spacing v_spacing char_width auto_wrap break_words
          (splitlines text) _ acc hll
        have hal := applyAlignment_dims width height halign valign acc.1
          (by rw [hd.1]; rfl) (by rw [hd.2]; rfl)
        have hp2 : ((if inverted then
            imgInvert (applyAlignment width height halign valign acc.1)
          else applyAlignment width height halign valign acc.1).w,
            (if inverted then
              imgInvert (applyAlignment width height halign valign acc.1)
            else applyAlignment width height halign valign acc.1).h) = p := by
          simpa [Except.map] using hp
        rw [← hp2]
        cases inverted with
        | false =>
          simp only [Bool.false_eq_true, if_false]
          rw [hal.1, hal.2]
        | true =>
          simp only [if_true]
          show ((applyAlignment width height halign valign acc.1).w,
            (applyAlignment width height halign valign acc.1).h) = (width, height)
          rw [hal.1, hal.2]

/-- C1 witness: a concrete multiline render that returns a bitmap, of the
requested 4 × 3 size. -/
theorem C1_witness :
    (render_multiline_text envA 4 3 0 0 HAlign.left VAlign.top false 0 0 none
        ['A'] false true).map (fun img => (img.w, img.h)) =
      Except.ok ((4 : Nat), (3 : Nat)) ∧
    ((4 : Nat), (3 : Nat)) = (4, 3) :=
  ⟨by rfl,
    (C1_output_dimensions envA 4 3 0 0 HAlign.left VAlign.top false 0 0 0 none
      ['A'] false true).2 (4, 3) (by rfl)⟩

/-- C2 counterexample: in `envB` the glyph for `B` is missing but its
metadata declares width 5.  Rendering `"BA"` left-top with no padding and
zero spacing puts the `A` glyph at `x = 0` (foreground at pixel `(0, 0)`),
whereas the claimed behavior (cursor advancing by the declared width 5 on
the missing glyph) would leave `(0, 0)` as background and put `A`'s
foreground at `(5, 0)`: the code does not advance the cursor by the
metadata width. -/
theorem C2_counterexample :
    (render_text envB 10 1 0 0 HAlign.left VAlign.top false 0 none
      ['B', 'A']).px 0 0 = img_fg ∧
    (render_text_claimC2 envB 10 1 0 0 HAlign.left VAlign.top false 0 none
      ['B', 'A']).px 0 0 = img_bg ∧
    (render_text_claimC2 envB 10 1 0 0 HAlign.left VAlign.top false 0 none
      ['B', 'A']).px 5 0 = img_fg := by
  refine ⟨?_, ?_, ?_⟩ <;> rfl

/-- C2 (amended): when the glyph bitmap for a character is missing, no
error is raised and the canvas is left untouched for that character, but
the cursor does not advance by the metadata-declared width: it moves only
by the inter-character `spacing` (`render_text` never reads the metadata),
so every subsequent character is positioned as if the missing glyph had
zero width. -/
theorem C2_missing_glyph_zero_advance (glyphs : Nat → Option Img)
    (char_width : Option Nat) (spacing : Int) (img : Img) (x y : Int)
    (c : Char) (rest : List Char) (hmiss : glyphs (get_char_code c) = none) :
    renderChars glyphs char_width spacing (c :: rest) img x y =
      renderChars glyphs char_width spacing rest img (x + spacing) y := by
  simp only [renderChars, render_character, hmiss]

/-- C2 witness: skipping the missing `B` glyph advances the cursor only by
the spacing 7, not by `B`'s declared metadata width 5. -/
theorem C2_witness :
    renderChars envB.glyphs none 7 ['B'] (imgNew 10 1 img_bg) 0 0 =
      renderChars envB.glyphs none 7 [] (imgNew 10 1 img_bg) (0 + 7) 0 :=
  C2_missing_glyph_zero_advance envB.glyphs none 7 (imgNew 10 1 img_bg) 0 0
    'B' [] rfl

/-- C7 counterexample: with the metadata resource missing (`envNone`),
`render_text` does not raise and returns a bitmap (of the requested 4 × 3
size): the claim that *every* render call raises on missing metadata is
false for `render_text`, which never reads the metadata. -/
theorem C7_counterexample :
    envNone.metadata = none ∧
      (render_text envNone 4 3 0 0 HAlign.left VAlign.top false 0 none
        ['A']).w = 4 ∧
      (render_text envNone 4 3 0 0 HAlign.left VAlign.top false 0 none
        ['A']).h = 3 :=
  ⟨rfl, rfl, rfl⟩

/-- C7 (amended): when the metadata resource for the requested (font, size)
is missing, `render_multiline_text` raises and the error propagates to the
caller (no silent fallback, no bitmap), while `render_text` — which never
consults the metadata — still returns a bitmap of the requested dimensions
without raising. -/
theorem C7_metadata_missing (env : GlyphEnv) (width height : Nat)
    (pad_left pad_top : Int) (halign : HAlign) (valign : VAlign)
    (inverted : Bool) (spacing h_spacing v_spacing : Int)
    (char_width : Option Nat) (text : List Char) (auto_wrap break_words : Bool)
    (hmd : env.metadata = none) :
    render_multiline_text env width height pad_left pad_top halign valign
        inverted h_spacing v_spacing char_width text auto_wrap break_words =
      Except.error RenderError.metadataMissing ∧
    (render_text env width height pad_left pad_top halign valign inverted
        spacing char_width text).w = width ∧
    (render_text env width height pad_left pad_top halign valign inverted
        spacing char_width text).h = height := by
  refine ⟨?_, (render_text_dims env width height pad_left pad_top halign
    valign inverted spacing char_width text).1,
    (render_text_dims env width height pad_left pad_top halign valign
      inverted spacing char_width text).2⟩
  unfold render_multiline_text
  rw [hmd]

/-- C7 witness: the concrete metadata-less environment. -/
theorem C7_witness :
    render_multiline_text envNone 4 3 0 0 HAlign.left VAlign.top false 0 0
        none ['A'] false true = Except.error RenderError.metadataMissing ∧
      (render_text envNone 4 3 0 0 HAlign.left VAlign.top false 0 none
        ['A']).w = 4 ∧
      (render_text envNone 4 3 0 0 HAlign.left VAlign.top false 0 none
        ['A']).h = 3 :=
  C7_metadata_missing envNone 4 3 0 0 HAlign.left VAlign.top false 0 0 0 none
    ['A'] false true rfl

/-- C10: if after composing the characters no non-background pixel exists
on the canvas (for example the text is empty or every glyph file is
missing), `render_text` skips the bounding-box realignment for every
alignment setting and returns, without raising, the uniform all-background
bitmap of size `(width, height)` — or its all-foreground inversion when
`inverted` is set. -/
theorem C10_blank_canvas (env : GlyphEnv) (width height : Nat)
    (pad_left pad_top : Int) (halign : HAlign) (valign : VAlign)
    (inverted : Bool) (spacing : Int) (char_width : Option Nat)
    (text : List Char)
    (hblank : ∀ i, i < width → ∀ j, j < height →
      (renderChars env.glyphs char_width spacing text
        (imgNew width height img_bg) pad_left pad_top).1.px i j = img_bg) :
    ((render_text env width height pad_left pad_top halign valign inverted
        spacing char_width text).w = width ∧
      (render_text env width height pad_left pad_top halign valign inverted
        spacing char_width text).h = height) ∧
    ∀ i, i < width → ∀ j, j < height →
      (render_text env width height pad_left pad_top halign valign inverted
        spacing char_width text).px i j = if inverted then img_fg else img_bg := by
  have hdims := renderChars_dims env.glyphs char_width spacing text
    (imgNew width height img_bg) pad_left pad_top
  have hbb : imgGetbbox (imgInvert (renderChars env.glyphs char_width spacing
      text (imgNew width height img_bg) pad_left pad_top).1) = none := by
    apply imgGetbbox_none_of_zero
    intro i hi j hj
    have hi2 : i < width := by
      have he : (imgInvert (renderChars env.glyphs char_width spacing text
        (imgNew width height img_bg) pad_left pad_top).1).w =
          (renderChars env.glyphs char_width spacing text
            (imgNew width height img_bg) pad_left pad_top).1.w := rfl
      rw [he, hdims.1] at hi
      exact hi
    have hj2 : j < height := by
      have he : (imgInvert (renderChars env.glyphs char_width spacing text
        (imgNew width height img_bg) pad_left pad_top).1).h =
          (renderChars env.glyphs char_width spacing text
            (imgNew width height img_bg) pad_left pad_top).1.h := rfl
      rw [he, hdims.2] at hj
      exact hj
    show 255 - (renderChars env.glyphs char_width spacing text
      (imgNew width height img_bg) pad_left pad_top).1.px i j = 0
    rw [hblank i hi2 j hj2]
    rfl
  refine ⟨render_text_dims env width height pad_left pad_top halign valign
    inverted spacing char_width text, ?_⟩
  intro i hi j hj
  simp only [render_text]
  rw [applyAlignment_of_blank width height halign valign _ hbb]
  cases inverted with
  | false =>
    simp only [Bool.false_eq_true, if_false]
    exact hblank i hi j hj
  | true =>
    simp only [if_true]
    show 255 - (renderChars env.glyphs char_width spacing text
      (imgNew width height img_bg) pad_left pad_top).1.px i j = img_fg
    rw [hblank i hi j hj]
    rfl

/-- C10 witness: every glyph missing in `envNone`, all alignments centered,
inverted output: the result is uniformly foreground at a sample pixel. -/
theorem C10_witness :
    ((render_text envNone 2 2 0 0 HAlign.center VAlign.middle true 0 none
        ['A']).w = 2 ∧
      (render_text envNone 2 2 0 0 HAlign.center VAlign.middle true 0 none
        ['A']).h = 2) ∧
    ∀ i, i < 2 → ∀ j, j < 2 →
      (render_text envNone 2 2 0 0 HAlign.center VAlign.middle true 0 none
        ['A']).px i j = if true then img_fg else img_bg :=
  C10_blank_canvas envNone 2 2 0 0 HAlign.center VAlign.middle true 0 none
    ['A'] (by decide)

end RGBLCD
